import Mathlib

set_option autoImplicit false

namespace StockAnalysis

/-!
Shallow embedding of the real-time stock-price subscription engine of the
repository: `src/stockValueManager.ts` (the `StockValueManager` class) and the
WebSocket session handler `handleWebSocketSession` of the Cloudflare worker.

Conventions of the embedding:
* a `WebSocket` object reference is an opaque handle `WS := Nat`; the JS
  `===` comparison of the objects is equality of handles;
* `ApiClient.getQuote` (which returns a quote or throws) is a parameter
  `fetch : String → Option YahooFinanceQuote`, `none` standing for a thrown
  error (timeout, provider error, malformed response);
* the optional `price?: number` field of a quote is `Option Int`; the JS
  coercion `quoteData.price || 0` maps a missing/null price to `0` (and `0`
  itself, being falsy, to `0`), i.e. `Option.getD 0`;
* wall-clock timestamps attached to outbound entries are value-irrelevant to
  every property treated here and are omitted from the entries;
* `ws.readyState === WebSocket.OPEN` is a parameter `ready : WS → Bool`, and
  a `ws.send` call that throws is a parameter `sendOk : WS → Bool` (the
  `try/catch` in `sendToClient` makes the function total either way).
-/

/-- Opaque connection handle standing for a `WebSocket` object reference. -/
abbrev WS := Nat

/-- `StockValueListener` of `stockValueManager.ts`: one connected client and
its interest list (a JS array of symbol strings). -/
structure StockValueListener where
  ws : WS
  interests : List String
deriving DecidableEq, Repr

/-- The manager state `this.listeners : StockValueListener[]`. -/
abbrev Listeners := List StockValueListener

/-- `addInterest(ws, symbol)`: walk `this.listeners`; at the first entry whose
`ws` matches, push `symbol` onto its `interests` unless already `includes`d,
then return. Entries after the first match, or all of them when no entry
matches, are untouched. No case normalization is performed. -/
def addInterest : Listeners → WS → String → Listeners
  | [], _, _ => []
  | l :: rest, w, s =>
    if l.ws = w then
      (if s ∈ l.interests then l else { l with interests := l.interests ++ [s] }) :: rest
    else
      l :: addInterest rest w s

/-- `removeInterest(ws, symbol)`: at the first entry whose `ws` matches,
replace `interests` by `interests.filter(i => i !== symbol)`, then return. -/
def removeInterest : Listeners → WS → String → Listeners
  | [], _, _ => []
  | l :: rest, w, s =>
    if l.ws = w then
      { l with interests := l.interests.filter (fun i => i ≠ s) } :: rest
    else
      l :: removeInterest rest w s

/-- `addListener(ws, interests)`: `this.listeners.push({ ws, interests })`,
unconditionally. -/
def addListener (listeners : Listeners) (w : WS) (interests : List String) : Listeners :=
  listeners ++ [{ ws := w, interests := interests }]

/-- `removeListener(ws)`: `this.listeners = this.listeners.filter(l => l.ws !== ws)`. -/
def removeListener (listeners : Listeners) (w : WS) : Listeners :=
  listeners.filter (fun l => l.ws ≠ w)

/-- All interests stored across the registry, with multiplicity. -/
def allInterests (listeners : Listeners) : List String :=
  listeners.flatMap (fun l => l.interests)

/-- The interest list of the first registry entry for handle `w`
(the entry every `addInterest`/`removeInterest` call operates on). -/
def interestsOf : Listeners → WS → List String
  | [], _ => []
  | l :: rest, w => if l.ws = w then l.interests else interestsOf rest w

/-- Outbound frames a connection handler may emit in direct response to an
inbound message. `handleWebSocketSession` of the worker emits none; the frame
type records what an `{type: "error", message}` frame would be. -/
inductive OutFrame where
  | errorFrame (message : String)
deriving DecidableEq, Repr

/-- The `message` event listener installed by `handleWebSocketSession`
(worker, lines 481–484): `stockValueManager?.addInterest(websocket, event.data)`.
The raw message text is passed as the symbol; nothing is parsed and no
response frame is sent. Returns the new registry state and the frames sent
back on the connection. -/
def handleWebSocketMessage (listeners : Listeners) (w : WS) (data : String) :
    Listeners × List OutFrame :=
  (addInterest listeners w data, [])

/-- The `YahooFinanceQuote` fields used by `uppdateStockValues`: the optional
`price?: number` field, `none` for a missing/null price. -/
structure YahooFinanceQuote where
  price : Option Int
deriving DecidableEq, Repr

/-- The `StockValue` record of `stockValueManager.ts`. -/
structure StockValue where
  symbol : String
  price : Int
deriving DecidableEq, Repr

/-- The per-cycle `stockCache : Map<string, StockValue>`, as the list of its
entries, most recent first. -/
abbrev StockCache := List (String × StockValue)

/-- `stockCache.has(s)` / `stockCache.get(s)`. -/
def cacheGet : StockCache → String → Option StockValue
  | [], _ => none
  | (k, v) :: rest, s => if k = s then some v else cacheGet rest s

/-- One entry of a per-listener `updates` array: `{type: 'price_update',
symbol, price, timestamp}` or `{type: 'error', symbol, message, timestamp}`
(timestamps omitted, see the header note). -/
inductive UpdateEntry where
  | price_update (symbol : String) (price : Int)
  | error (symbol : String) (message : String)
deriving DecidableEq, Repr

/-- The symbol field an update entry carries. -/
def UpdateEntry.symbol : UpdateEntry → String
  | .price_update s _ => s
  | .error s _ => s

/-- The body of the inner `try` for one `symbol` of a listener's interests:
use the cached `StockValue` when present, otherwise call
`this.apiClient.getQuote(symbol)` (counted) and cache
`{symbol, price: quoteData.price || 0}` on success; a throw (`fetch s = none`)
falls to the `catch`, which pushes an error entry and caches nothing.
Returns (cache after, number of `getQuote` calls, entry pushed to `updates`). -/
def resolveSymbol (fetch : String → Option YahooFinanceQuote) (cache : StockCache)
    (s : String) : StockCache × Nat × UpdateEntry :=
  match cacheGet cache s with
  | some sv => (cache, 0, .price_update sv.symbol sv.price)
  | none =>
    match fetch s with
    | some q =>
      let sv : StockValue := { symbol := s, price := q.price.getD 0 }
      ((s, sv) :: cache, 1, .price_update sv.symbol sv.price)
    | none => (cache, 1, .error s "Failed to fetch price")

/-- The `for (const symbol of listener.interests)` loop: fold `resolveSymbol`
over the interest list, accumulating the `updates` array. -/
def processInterests (fetch : String → Option YahooFinanceQuote) :
    StockCache → List String → StockCache × Nat × List UpdateEntry
  | cache, [] => (cache, 0, [])
  | cache, s :: rest =>
    let r₁ := resolveSymbol fetch cache s
    let r₂ := processInterests fetch r₁.1 rest
    (r₂.1, r₁.2.1 + r₂.2.1, r₁.2.2 :: r₂.2.2)

/-- One attempted `sendToClient(listener.ws, updates)` call with its payload. -/
structure Delivery where
  listener : StockValueListener
  updates : List UpdateEntry
deriving DecidableEq, Repr

/-- The `for (const listener of this.listeners)` loop of `uppdateStockValues`:
a listener with `interests.length === 0` is skipped (`continue`); otherwise
its interests are resolved against the shared per-cycle cache and, when the
`updates` array is non-empty, `sendToClient` is invoked with it. -/
def runCycle (fetch : String → Option YahooFinanceQuote) :
    StockCache → Listeners → StockCache × Nat × List Delivery
  | cache, [] => (cache, 0, [])
  | cache, l :: rest =>
    if l.interests.isEmpty then
      runCycle fetch cache rest
    else
      let r₁ := processInterests fetch cache l.interests
      let r₂ := runCycle fetch r₁.1 rest
      (r₂.1, r₁.2.1 + r₂.2.1,
        if 0 < r₁.2.2.length then ⟨l, r₁.2.2⟩ :: r₂.2.2 else r₂.2.2)

/-- `sendToClient(ws, data)`: inside a `try/catch`, send only when
`ws.readyState === WebSocket.OPEN`; a non-ready socket is skipped and a
throwing `send` is caught. Returns the frame actually transmitted, `none`
when the send was dropped or threw. Never propagates an error. -/
def sendToClient (ready sendOk : WS → Bool) (w : WS) (data : List UpdateEntry) :
    Option (List UpdateEntry) :=
  if ready w then (if sendOk w then some data else none) else none

/-- The observable outcome of one `uppdateStockValues` run. -/
structure CycleResult where
  /-- `this.listeners` after the run; the method never assigns to it. -/
  listenersAfter : Listeners
  /-- Number of `this.apiClient.getQuote` invocations. -/
  apiCalls : Nat
  /-- The `sendToClient` invocations attempted, in listener order. -/
  deliveries : List Delivery
  /-- The frames actually transmitted: `(ws, data)` for each delivery whose
  socket was ready and whose `send` did not throw. -/
  sent : List (WS × List UpdateEntry)
  /-- The `stockCache` at the end of the run (it is then discarded). -/
  finalCache : StockCache
deriving Repr

/-- `uppdateStockValues()`: start from a fresh empty `stockCache`, run the
listener loop, and attempt each delivery through `sendToClient`. -/
def uppdateStockValues (fetch : String → Option YahooFinanceQuote)
    (ready sendOk : WS → Bool) (listeners : Listeners) : CycleResult :=
  let r := runCycle fetch [] listeners
  { listenersAfter := listeners
    apiCalls := r.2.1
    deliveries := r.2.2
    sent := r.2.2.filterMap fun d =>
      (sendToClient ready sendOk d.listener.ws d.updates).map fun u => (d.listener.ws, u)
    finalCache := r.1 }

/-- The entry `uppdateStockValues` produces for a symbol under a (per-cycle
deterministic) resolver `fetch`: a price entry from the first successful
resolution, an error entry when resolution throws. -/
def entryFor (fetch : String → Option YahooFinanceQuote) (s : String) : UpdateEntry :=
  match fetch s with
  | some q => .price_update s (q.price.getD 0)
  | none => .error s "Failed to fetch price"

/-! ### Cache lemmas -/

/-- The keys present in the per-cycle cache. -/
def cacheKeys (cache : StockCache) : List String := cache.map Prod.fst

theorem cacheGet_some_mem {c : StockCache} {s : String} {v : StockValue}
    (h : cacheGet c s = some v) : (s, v) ∈ c := by
  induction c with
  | nil => simp [cacheGet] at h
  | cons p rest ih =>
    obtain ⟨k, w⟩ := p
    by_cases hk : k = s
    · subst hk
      simp [cacheGet] at h
      simp [h]
    · simp [cacheGet, hk] at h
      exact List.mem_cons_of_mem _ (ih h)

theorem cacheGet_eq_none_iff {c : StockCache} {s : String} :
    cacheGet c s = none ↔ s ∉ cacheKeys c := by
  induction c with
  | nil => simp [cacheGet, cacheKeys]
  | cons p rest ih =>
    obtain ⟨k, w⟩ := p
    by_cases hk : k = s
    · subst hk
      simp [cacheGet, cacheKeys]
    · simp [cacheGet, cacheKeys, hk, Ne.symm hk] at ih ⊢
      exact ih

/-- Every cache entry was produced by a successful `getQuote` for its key:
the stored record repeats the key as its `symbol` and carries
`quoteData.price || 0` of the fetched quote. -/
def CacheGood (fetch : String → Option YahooFinanceQuote) (cache : StockCache) : Prop :=
  ∀ p ∈ cache, p.2.symbol = p.1 ∧ ∃ q, fetch p.1 = some q ∧ p.2.price = q.price.getD 0

theorem resolveSymbol_entry {fetch : String → Option YahooFinanceQuote}
    {c : StockCache} {s : String} (h : CacheGood fetch c) :
    (resolveSymbol fetch c s).2.2 = entryFor fetch s := by
  unfold resolveSymbol entryFor
  cases hc : cacheGet c s with
  | none => cases hf : fetch s <;> simp
  | some sv =>
    obtain ⟨hsym, q, hq, hp⟩ := h _ (cacheGet_some_mem hc)
    simp only at hsym hq hp
    simp [hq, hsym, hp]

theorem resolveSymbol_cacheGood {fetch : String → Option YahooFinanceQuote}
    {c : StockCache} {s : String} (h : CacheGood fetch c) :
    CacheGood fetch (resolveSymbol fetch c s).1 := by
  unfold resolveSymbol
  cases hc : cacheGet c s with
  | some sv => simpa using h
  | none =>
    cases hf : fetch s with
    | none => simpa using h
    | some q =>
      intro p hp
      simp only [List.mem_cons] at hp
      rcases hp with hp | hp
      · subst hp
        exact ⟨rfl, q, hf, rfl⟩
      · exact h _ hp

theorem processInterests_cacheGood {fetch : String → Option YahooFinanceQuote}
    {ss : List String} : ∀ {c : StockCache}, CacheGood fetch c →
    CacheGood fetch (processInterests fetch c ss).1 := by
  induction ss with
  | nil => intro c h; simpa [processInterests] using h
  | cons s rest ih =>
    intro c h
    simpa [processInterests] using ih (resolveSymbol_cacheGood h)

theorem processInterests_updates {fetch : String → Option YahooFinanceQuote}
    {ss : List String} : ∀ {c : StockCache}, CacheGood fetch c →
    (processInterests fetch c ss).2.2 = ss.map (entryFor fetch) := by
  induction ss with
  | nil => intro c _; simp [processInterests]
  | cons s rest ih =>
    intro c h
    simp [processInterests, resolveSymbol_entry h, ih (resolveSymbol_cacheGood h)]

theorem processInterests_calls {fetch : String → Option YahooFinanceQuote}
    {ss : List String} : ∀ {c : StockCache}, (∀ s ∈ ss, (fetch s).isSome) →
    (processInterests fetch c ss).2.1 =
      (ss.toFinset \ (cacheKeys c).toFinset).card ∧
    (cacheKeys (processInterests fetch c ss).1).toFinset =
      (cacheKeys c).toFinset ∪ ss.toFinset := by
  induction ss with
  | nil => intro c _; simp [processInterests]
  | cons s rest ih =>
    intro c hs
    have hrest : ∀ t ∈ rest, (fetch t).isSome := fun t ht => hs t (List.mem_cons_of_mem _ ht)
    have hshead : (fetch s).isSome := hs s (List.mem_cons_self _ _)
    unfold processInterests resolveSymbol
    cases hc : cacheGet c s with
    | some sv =>
      have hmem : s ∈ (cacheKeys c).toFinset := by
        rw [List.mem_toFinset]
        by_contra hn
        rw [← cacheGet_eq_none_iff] at hn
        rw [hn] at hc
        exact Option.noConfusion hc
      obtain ⟨ihc, ihk⟩ := ih (c := c) hrest
      refine ⟨?_, ?_⟩
      · simp only [ihc, List.toFinset_cons]
        rw [Finset.insert_sdiff_of_mem _ hmem]
        omega
      · simp only [ihk, List.toFinset_cons]
        ext x
        simp only [Finset.mem_union, Finset.mem_insert]
        constructor
        · tauto
        · rintro (h | h | h)
          · tauto
          · subst h; exact Or.inl (by simpa using hmem)
          · tauto
    | none =>
      cases hf : fetch s with
      | none => rw [hf] at hshead; simp at hshead
      | some q =>
        have hnot : s ∉ (cacheKeys c).toFinset := by
          rw [List.mem_toFinset]
          exact cacheGet_eq_none_iff.mp hc
        obtain ⟨ihc, ihk⟩ :=
          ih (c := (s, { symbol := s, price := q.price.getD 0 }) :: c) hrest
        have hkeys : cacheKeys ((s, ({ symbol := s, price := q.price.getD 0 } : StockValue)) :: c)
            = s :: cacheKeys c := rfl
        rw [hkeys] at ihc ihk
        refine ⟨?_, ?_⟩
        · simp only [ihc, List.toFinset_cons]
          have hsplit : insert s rest.toFinset \ (cacheKeys c).toFinset =
              insert s (rest.toFinset \ insert s (cacheKeys c).toFinset) := by
            ext x
            simp only [Finset.mem_sdiff, Finset.mem_insert]
            by_cases hx : x = s
            · subst hx
              simp [hnot, Finset.mem_sdiff]
            · tauto
          rw [hsplit, Finset.card_insert_of_not_mem (by simp)]
          omega
        · simp only [ihk, List.toFinset_cons]
          ext x
          simp only [Finset.mem_union, Finset.mem_insert]
          tauto

theorem runCycle_cacheGood {fetch : String → Option YahooFinanceQuote}
    {L : Listeners} : ∀ {c : StockCache}, CacheGood fetch c →
    CacheGood fetch (runCycle fetch c L).1 := by
  induction L with
  | nil => intro c h; simpa [runCycle] using h
  | cons l rest ih =>
    intro c h
    unfold runCycle
    by_cases he : l.interests.isEmpty
    · simpa [he] using ih h
    · simpa [he] using ih (processInterests_cacheGood h)

theorem runCycle_deliveries {fetch : String → Option YahooFinanceQuote}
    {L : Listeners} : ∀ {c : StockCache}, CacheGood fetch c →
    (runCycle fetch c L).2.2 =
      (L.filter fun l => !l.interests.isEmpty).map
        (fun l => ⟨l, l.interests.map (entryFor fetch)⟩) := by
  induction L with
  | nil => intro c _; simp [runCycle]
  | cons l rest ih =>
    intro c h
    unfold runCycle
    by_cases he : l.interests.isEmpty
    · simpa [he] using ih h
    · have hupd := @processInterests_updates fetch l.interests c h
      have hlen : 0 < (processInterests fetch c l.interests).2.2.length := by
        rw [hupd]
        simp only [List.length_map]
        cases hl : l.interests with
        | nil => rw [hl] at he; simp at he
        | cons a as => simp
      simp only [he, Bool.not_false, if_neg (by simpa using he), List.filter_cons,
        Bool.not_eq_true']
      rw [if_pos hlen]
      simp only [hupd]
      rw [ih (processInterests_cacheGood h)]
      simp [he]

theorem runCycle_calls {fetch : String → Option YahooFinanceQuote}
    {L : Listeners} : ∀ {c : StockCache}, (∀ s ∈ allInterests L, (fetch s).isSome) →
    (runCycle fetch c L).2.1 =
      ((allInterests L).toFinset \ (cacheKeys c).toFinset).card ∧
    (cacheKeys (runCycle fetch c L).1).toFinset =
      (cacheKeys c).toFinset ∪ (allInterests L).toFinset := by
  induction L with
  | nil => intro c _; simp [runCycle, allInterests]
  | cons l rest ih =>
    intro c hs
    have hall : allInterests (l :: rest) = l.interests ++ allInterests rest := by
      simp [allInterests]
    have hsl : ∀ s ∈ l.interests, (fetch s).isSome := fun s h =>
      hs s (by rw [hall]; exact List.mem_append_left _ h)
    have hsrest : ∀ s ∈ allInterests rest, (fetch s).isSome := fun s h =>
      hs s (by rw [hall]; exact List.mem_append_right _ h)
    unfold runCycle
    by_cases he : l.interests.isEmpty
    · have hnil : l.interests = [] := by simpa [List.isEmpty_iff] using he
      obtain ⟨ihc, ihk⟩ := ih (c := c) hsrest
      rw [if_pos he]
      refine ⟨?_, ?_⟩
      · rw [ihc, hall, hnil]
        simp
      · rw [ihk, hall, hnil]
        simp
    · rw [if_neg he]
      obtain ⟨pc, pk⟩ := @processInterests_calls fetch l.interests c hsl
      obtain ⟨ihc, ihk⟩ :=
        ih (c := (processInterests fetch c l.interests).1) hsrest
      rw [pk] at ihc ihk
      refine ⟨?_, ?_⟩
      · simp only [pc, ihc, hall, List.toFinset_append]
        have hsplit :
            (l.interests.toFinset ∪ (allInterests rest).toFinset) \ (cacheKeys c).toFinset =
            (l.interests.toFinset \ (cacheKeys c).toFinset) ∪
              ((allInterests rest).toFinset \
                ((cacheKeys c).toFinset ∪ l.interests.toFinset)) := by
          ext x
          simp only [Finset.mem_sdiff, Finset.mem_union]
          tauto
        have hdisj :
            Disjoint (l.interests.toFinset \ (cacheKeys c).toFinset)
              ((allInterests rest).toFinset \
                ((cacheKeys c).toFinset ∪ l.interests.toFinset)) := by
          rw [Finset.disjoint_left]
          intro x hx₁ hx₂
          simp only [Finset.mem_sdiff, Finset.mem_union] at hx₁ hx₂
          tauto
        rw [hsplit, Finset.card_union_of_disjoint hdisj]
      · rw [ihk, hall]
        simp [Finset.union_assoc]

theorem cacheGet_resolveSymbol_mono {fetch : String → Option YahooFinanceQuote}
    {c : StockCache} {s t : String} {v : StockValue} (h : cacheGet c t = some v) :
    cacheGet (resolveSymbol fetch c s).1 t = some v := by
  unfold resolveSymbol
  cases hc : cacheGet c s with
  | some sv => simpa using h
  | none =>
    cases hf : fetch s with
    | none => simpa using h
    | some q =>
      simp only [cacheGet]
      by_cases hst : s = t
      · subst hst
        rw [hc] at h
        exact Option.noConfusion h
      · rw [if_neg hst]
        exact h

theorem cacheGet_processInterests_mono {fetch : String → Option YahooFinanceQuote}
    {ss : List String} : ∀ {c : StockCache} {t : String} {v : StockValue},
    cacheGet c t = some v → cacheGet (processInterests fetch c ss).1 t = some v := by
  induction ss with
  | nil => intro c t v h; simpa [processInterests] using h
  | cons s rest ih =>
    intro c t v h
    simpa [processInterests] using ih (cacheGet_resolveSymbol_mono h)

theorem cacheGet_processInterests_isSome {fetch : String → Option YahooFinanceQuote}
    {ss : List String} : ∀ {c : StockCache} {s : String}, s ∈ ss → (fetch s).isSome →
    (cacheGet (processInterests fetch c ss).1 s).isSome := by
  induction ss with
  | nil => intro c s h _; simp at h
  | cons t rest ih =>
    intro c s hmem hf
    rcases List.mem_cons.mp hmem with hst | hst
    · subst hst
      have : ∃ v, cacheGet (resolveSymbol fetch c s).1 s = some v := by
        cases hc : cacheGet c s with
        | some sv => exact ⟨sv, by simp [resolveSymbol, hc]⟩
        | none =>
          cases hq : fetch s with
          | none => rw [hq] at hf; simp at hf
          | some q =>
            exact ⟨{ symbol := s, price := q.price.getD 0 },
              by simp [resolveSymbol, hc, hq, cacheGet]⟩
      obtain ⟨v, hv⟩ := this
      have := @cacheGet_processInterests_mono fetch rest _ _ _ hv
      simp only [processInterests]
      rw [this]
      rfl
    · exact (by simpa [processInterests] using ih (c := (resolveSymbol fetch c t).1) hst hf)

theorem cacheGet_runCycle_mono {fetch : String → Option YahooFinanceQuote}
    {L : Listeners} : ∀ {c : StockCache} {t : String} {v : StockValue},
    cacheGet c t = some v → cacheGet (runCycle fetch c L).1 t = some v := by
  induction L with
  | nil => intro c t v h; simpa [runCycle] using h
  | cons l rest ih =>
    intro c t v h
    unfold runCycle
    by_cases he : l.interests.isEmpty
    · simpa [he] using ih h
    · simpa [he] using ih (cacheGet_processInterests_mono h)

theorem cacheGet_runCycle_isSome {fetch : String → Option YahooFinanceQuote}
    {L : Listeners} : ∀ {c : StockCache} {l : StockValueListener} {s : String},
    l ∈ L → s ∈ l.interests → (fetch s).isSome →
    (cacheGet (runCycle fetch c L).1 s).isSome := by
  induction L with
  | nil => intro c l s h _ _; simp at h
  | cons l' rest ih =>
    intro c l s hl hs hf
    rcases List.mem_cons.mp hl with hll | hll
    · subst hll
      have he : ¬l.interests.isEmpty := by
        cases hi : l.interests with
        | nil => rw [hi] at hs; simp at hs
        | cons a as => simp [hi]
      have h₁ := @cacheGet_processInterests_isSome fetch l.interests c s hs hf
      obtain ⟨v, hv⟩ := Option.isSome_iff_exists.mp h₁
      have h₂ := @cacheGet_runCycle_mono fetch rest _ _ _ hv
      unfold runCycle
      rw [if_neg he]
      simp only
      rw [h₂]
      rfl
    · unfold runCycle
      by_cases he : l'.interests.isEmpty
      · rw [if_pos he]
        exact ih hll hs hf
      · rw [if_neg he]
        exact ih hll hs hf

theorem cacheGet_of_good_isSome {fetch : String → Option YahooFinanceQuote}
    {c : StockCache} {s : String} {q : YahooFinanceQuote}
    (hg : CacheGood fetch c) (hf : fetch s = some q)
    (hsome : (cacheGet c s).isSome) :
    cacheGet c s = some { symbol := s, price := q.price.getD 0 } := by
  obtain ⟨v, hv⟩ := Option.isSome_iff_exists.mp hsome
  obtain ⟨hsym, q', hq', hp⟩ := hg _ (cacheGet_some_mem hv)
  simp only at hsym hq' hp
  rw [hf] at hq'
  obtain rfl : q = q' := by injection hq'
  rw [hv]
  congr 1
  cases v
  simp only at hsym hp
  simp [hsym, hp]

/-! ### Registry lemmas -/

theorem addInterest_idem (L : Listeners) (w : WS) (s : String) :
    addInterest (addInterest L w s) w s = addInterest L w s := by
  induction L with
  | nil => rfl
  | cons l rest ih =>
    by_cases hw : l.ws = w
    · by_cases hs : s ∈ l.interests
      · simp [addInterest, hw, hs]
      · simp [addInterest, hw, hs]
    · simp [addInterest, hw, ih]

theorem removeInterest_idem (L : Listeners) (w : WS) (s : String) :
    removeInterest (removeInterest L w s) w s = removeInterest L w s := by
  induction L with
  | nil => rfl
  | cons l rest ih =>
    by_cases hw : l.ws = w
    · simp only [removeInterest, hw, if_pos]
      congr 1
      have : ∀ i ∈ l.interests.filter (fun i => i ≠ s), (fun i => decide (i ≠ s)) i = true :=
        fun i hi => by simpa using (List.mem_filter.mp hi).2
      simp only [List.filter_eq_self.mpr this]
    · simp [removeInterest, hw, ih]

theorem allInterests_cons (l : StockValueListener) (L : Listeners) :
    allInterests (l :: L) = l.interests ++ allInterests L := by
  simp [allInterests]

theorem removeInterest_not_mem (L : Listeners) (w : WS) (s : String)
    (h : ∀ l ∈ L, l.ws = w → s ∉ l.interests) :
    removeInterest L w s = L := by
  induction L with
  | nil => rfl
  | cons l rest ih =>
    by_cases hw : l.ws = w
    · have hs : s ∉ l.interests := h l (List.mem_cons_self _ _) hw
      have hfix : l.interests.filter (fun i => i ≠ s) = l.interests := by
        apply List.filter_eq_self.mpr
        intro i hi
        simp only [decide_eq_true_iff]
        intro hcontra
        exact hs (hcontra ▸ hi)
      simp only [removeInterest, if_pos hw, hfix]
    · simp only [removeInterest, if_neg hw]
      exact congrArg (List.cons l) (ih fun l' hl' => h l' (List.mem_cons_of_mem _ hl'))

theorem removeListener_idem (L : Listeners) (w : WS) :
    removeListener (removeListener L w) w = removeListener L w := by
  unfold removeListener
  apply List.filter_eq_self.mpr
  intro l hl
  exact (List.mem_filter.mp hl).2

theorem addInterest_nodup (L : Listeners) (w : WS) (s : String)
    (h : ∀ l ∈ L, l.interests.Nodup) :
    ∀ l ∈ addInterest L w s, l.interests.Nodup := by
  induction L with
  | nil => intro l hl; simp [addInterest] at hl
  | cons l₀ rest ih =>
    have h₀ := h l₀ (List.mem_cons_self _ _)
    have hrest := fun l' hl' => h l' (List.mem_cons_of_mem _ hl')
    intro l hl
    by_cases hw : l₀.ws = w
    · by_cases hs : s ∈ l₀.interests
      · rw [show addInterest (l₀ :: rest) w s = l₀ :: rest by
          simp [addInterest, hw, hs]] at hl
        exact h l hl
      · rw [show addInterest (l₀ :: rest) w s =
            { l₀ with interests := l₀.interests ++ [s] } :: rest by
          simp [addInterest, hw, hs]] at hl
        rcases List.mem_cons.mp hl with rfl | hl
        · simp only [List.nodup_append, List.nodup_cons, List.not_mem_nil,
            not_false_eq_true, List.nodup_nil, and_true, true_and]
          refine ⟨h₀, ?_⟩
          intro a ha hb
          simp only [List.mem_singleton] at hb
          exact hs (hb ▸ ha)
        · exact hrest l hl
    · rw [show addInterest (l₀ :: rest) w s = l₀ :: addInterest rest w s by
        simp [addInterest, hw]] at hl
      rcases List.mem_cons.mp hl with rfl | hl
      · exact h₀
      · exact ih hrest l hl

theorem allInterests_addInterest (L : Listeners) (w : WS) (s : String) :
    ∀ t ∈ allInterests (addInterest L w s), t ∈ allInterests L ∨ t = s := by
  induction L with
  | nil => intro t ht; simp [addInterest, allInterests] at ht
  | cons l₀ rest ih =>
    intro t ht
    by_cases hw : l₀.ws = w
    · by_cases hs : s ∈ l₀.interests
      · rw [show addInterest (l₀ :: rest) w s = l₀ :: rest by
          simp [addInterest, hw, hs]] at ht
        exact Or.inl ht
      · rw [show addInterest (l₀ :: rest) w s =
            { l₀ with interests := l₀.interests ++ [s] } :: rest by
          simp [addInterest, hw, hs]] at ht
        rw [allInterests_cons] at ht
        rw [allInterests_cons]
        simp only [List.mem_append, List.mem_singleton] at ht ⊢
        tauto
    · rw [show addInterest (l₀ :: rest) w s = l₀ :: addInterest rest w s by
        simp [addInterest, hw]] at ht
      rw [allInterests_cons] at ht
      rw [allInterests_cons]
      simp only [List.mem_append] at ht ⊢
      rcases ht with ht | ht
      · tauto
      · rcases ih t ht with h | h <;> tauto

theorem mem_interestsOf_addInterest (L : Listeners) (w : WS) (s : String)
    (h : ∃ l ∈ L, l.ws = w) :
    s ∈ interestsOf (addInterest L w s) w := by
  induction L with
  | nil => simp at h
  | cons l₀ rest ih =>
    by_cases hw : l₀.ws = w
    · by_cases hs : s ∈ l₀.interests
      · simp [addInterest, hw, hs, interestsOf]
      · simp [addInterest, hw, hs, interestsOf]
    · obtain ⟨l, hl, hlw⟩ := h
      rcases List.mem_cons.mp hl with rfl | hl
      · exact absurd hlw hw
      · simpa [addInterest, hw, interestsOf] using ih ⟨l, hl, hlw⟩

/-! ### Claims about the Subscriber Registry operations -/

/-- Claim C3: for every registry state, connection handle and symbol,
`addInterest` twice equals `addInterest` once; `removeInterest` twice equals
`removeInterest` once, and removing a never-added symbol is a no-op;
`removeListener` twice equals `removeListener` once. -/
theorem claim_C3 (L : Listeners) (w : WS) (s : String) :
    addInterest (addInterest L w s) w s = addInterest L w s ∧
    removeInterest (removeInterest L w s) w s = removeInterest L w s ∧
    ((∀ l ∈ L, l.ws = w → s ∉ l.interests) → removeInterest L w s = L) ∧
    removeListener (removeListener L w) w = removeListener L w :=
  ⟨addInterest_idem L w s, removeInterest_idem L w s,
    removeInterest_not_mem L w s, removeListener_idem L w⟩

/-- Witness for C3 at a concrete registry, discharging the never-added
hypothesis of the no-op conjunct. -/
theorem claim_C3_witness :
    addInterest (addInterest [⟨0, ["A"]⟩] 0 "B") 0 "B" =
      addInterest [⟨0, ["A"]⟩] 0 "B" ∧
    removeInterest [⟨0, ["A"]⟩] 0 "B" = [⟨0, ["A"]⟩] := by
  have h := claim_C3 [⟨0, ["A"]⟩] 0 "B"
  exact ⟨h.1, h.2.2.1 (by decide)⟩

/-- Claim C4 is false of the code: `addInterest` performs no case
normalization. Adding `"aapl"` then `"AAPL"` for the same handle stores two
separate interests, the first of which is not upper-case, instead of the
single upper-case interest the claim requires. -/
theorem claim_C4_counterexample :
    addInterest (addInterest [⟨0, []⟩] 0 "aapl") 0 "AAPL" =
      [⟨0, ["aapl", "AAPL"]⟩] ∧
    "aapl".data.map Char.toUpper = "AAPL".data ∧
    "aapl" ≠ "AAPL" ∧
    (interestsOf (addInterest (addInterest [⟨0, []⟩] 0 "aapl") 0 "AAPL") 0).length = 2 ∧
    "aapl" ∈ interestsOf (addInterest (addInterest [⟨0, []⟩] 0 "aapl") 0 "AAPL") 0 := by
  refine ⟨by decide, by decide, by decide, by decide, by decide⟩

/-- Claim C4 amended: `addInterest` inserts the symbol string verbatim (no
case mapping): every interest stored after the call was already stored or is
the argument itself, and each listener's interest list stays duplicate-free
with respect to exact string equality. -/
theorem claim_C4_amended (L : Listeners) (w : WS) (s : String)
    (h : ∀ l ∈ L, l.interests.Nodup) :
    (∀ l ∈ addInterest L w s, l.interests.Nodup) ∧
    (∀ t ∈ allInterests (addInterest L w s), t ∈ allInterests L ∨ t = s) :=
  ⟨addInterest_nodup L w s h, allInterests_addInterest L w s⟩

/-- Witness for the amended C4 at a concrete registry: the listener that
results from adding `AAPL` to a `MSFT`-only interest list is duplicate-free. -/
theorem claim_C4_amended_witness :
    (⟨0, ["MSFT", "AAPL"]⟩ : StockValueListener).interests.Nodup :=
  (claim_C4_amended [⟨0, ["MSFT"]⟩] 0 "AAPL" (by decide)).1
    ⟨0, ["MSFT", "AAPL"]⟩ (by decide)

/-- Claim C5 is false of the code: `addListener` pushes unconditionally, so a
second registration of an already-present handle yields a second entry for
that handle instead of being rejected as a no-op. -/
theorem claim_C5_counterexample :
    addListener (addListener [] 0 []) 0 [] = [⟨0, []⟩, ⟨0, []⟩] ∧
    (addListener (addListener [] 0 []) 0 []).countP (fun l => l.ws == 0) = 2 := by
  refine ⟨by decide, by decide⟩

/-- Claim C5 amended: registration unconditionally appends an entry with the
given handle and interests — every call, duplicate handle or not, raises that
handle's entry count by one — and `removeListener` deletes all entries for
the handle, cancelling the append. -/
theorem claim_C5_amended (L : Listeners) (w : WS) (ints : List String) :
    ({ ws := w, interests := ints } : StockValueListener) ∈ addListener L w ints ∧
    (addListener L w ints).countP (fun l => l.ws == w) =
      L.countP (fun l => l.ws == w) + 1 ∧
    removeListener (addListener L w ints) w = removeListener L w := by
  refine ⟨?_, ?_, ?_⟩
  · simp [addListener]
  · simp [addListener, List.countP_append, List.countP_cons]
  · simp [addListener, removeListener, List.filter_append]

/-- Claim C9 is false of the code: the `message` handler installed by
`handleWebSocketSession` performs no JSON parsing and no type dispatch. A
malformed message produces no `error` response frame, and the raw message
text itself is stored as a single interest; a well-formed subscribe frame
would likewise be stored whole rather than trigger one `addInterest` per
listed symbol. -/
theorem claim_C9_counterexample :
    (handleWebSocketMessage [⟨0, []⟩] 0 "this is not JSON").2 = [] ∧
    interestsOf (handleWebSocketMessage [⟨0, []⟩] 0 "this is not JSON").1 0 =
      ["this is not JSON"] ∧
    interestsOf (handleWebSocketMessage [⟨0, []⟩] 0
      "\x7b\"type\": \"subscribe\", \"symbols\": [\"AAPL\"]\x7d").1 0 =
      ["\x7b\"type\": \"subscribe\", \"symbols\": [\"AAPL\"]\x7d"] ∧
    "AAPL" ∉ interestsOf (handleWebSocketMessage [⟨0, []⟩] 0
      "\x7b\"type\": \"subscribe\", \"symbols\": [\"AAPL\"]\x7d").1 0 := by
  refine ⟨rfl, by decide, by decide, by decide⟩

/-- Claim C9 amended: for every inbound message, well-formed or not, the
handler sends no response frame at all (in particular no `error` frame),
never closes the connection and never throws, and makes exactly one
`addInterest` call passing the raw message text as the symbol, which is then
stored among the sender's interests when the sender is registered. -/
theorem claim_C9_amended (L : Listeners) (w : WS) (data : String)
    (h : ∃ l ∈ L, l.ws = w) :
    (handleWebSocketMessage L w data).2 = [] ∧
    (handleWebSocketMessage L w data).1 = addInterest L w data ∧
    data ∈ interestsOf (handleWebSocketMessage L w data).1 w :=
  ⟨rfl, rfl, mem_interestsOf_addInterest L w data h⟩

/-- Witness for the amended C9 at a concrete registry. -/
theorem claim_C9_amended_witness :
    "PING" ∈ interestsOf (handleWebSocketMessage [⟨7, []⟩] 7 "PING").1 7 :=
  (claim_C9_amended [⟨7, []⟩] 7 "PING" ⟨⟨7, []⟩, by decide, rfl⟩).2.2

/-! ### Claims about the broadcast cycle -/

theorem cacheGood_nil {fetch : String → Option YahooFinanceQuote} :
    CacheGood fetch [] :=
  fun p hp => absurd hp (List.not_mem_nil p)

theorem uppdateStockValues_deliveries (fetch : String → Option YahooFinanceQuote)
    (ready sendOk : WS → Bool) (L : Listeners) :
    (uppdateStockValues fetch ready sendOk L).deliveries =
      (L.filter fun l => !l.interests.isEmpty).map
        (fun l => ⟨l, l.interests.map (entryFor fetch)⟩) := by
  simpa [uppdateStockValues] using
    @runCycle_deliveries fetch L [] cacheGood_nil

theorem entryFor_symbol (fetch : String → Option YahooFinanceQuote) (s : String) :
    (entryFor fetch s).symbol = s := by
  unfold entryFor
  cases fetch s <;> simp [UpdateEntry.symbol]

theorem delivery_exists (fetch : String → Option YahooFinanceQuote)
    (ready sendOk : WS → Bool) (L : Listeners) (l : StockValueListener)
    (hl : l ∈ L) (hne : l.interests ≠ []) :
    (⟨l, l.interests.map (entryFor fetch)⟩ : Delivery) ∈
      (uppdateStockValues fetch ready sendOk L).deliveries := by
  rw [uppdateStockValues_deliveries]
  refine List.mem_map_of_mem _ (List.mem_filter.mpr ⟨hl, ?_⟩)
  simpa [List.isEmpty_iff] using hne

/-- Claim C1 is false of the code: a failed resolution is not recorded in the
per-cycle cache (`stockCache.set` runs only on success), so a symbol whose
`getQuote` throws is re-fetched at its next occurrence within the same cycle.
With two listeners interested in the same single symbol and a resolver that
always fails, one cycle makes 2 calls while only 1 distinct symbol is
subscribed. -/
theorem claim_C1_counterexample :
    (uppdateStockValues (fun _ => none) (fun _ => true) (fun _ => true)
      [⟨0, ["A"]⟩, ⟨1, ["A"]⟩]).apiCalls = 2 ∧
    (allInterests [⟨0, ["A"]⟩, ⟨1, ["A"]⟩]).dedup.length = 1 := by
  refine ⟨by decide, by decide⟩

/-- Claim C1 amended: in a cycle in which every requested symbol resolves
successfully, the number of `getQuote` calls equals the number of distinct
symbols across all listeners' interests — a successfully resolved symbol is
cached and never re-fetched within the cycle, however many listeners want
it. (A failed resolution, by contrast, is not cached and is retried at the
symbol's next occurrence in the same cycle.) -/
theorem claim_C1_amended (fetch : String → Option YahooFinanceQuote)
    (ready sendOk : WS → Bool) (L : Listeners)
    (h : ∀ s ∈ allInterests L, (fetch s).isSome) :
    (uppdateStockValues fetch ready sendOk L).apiCalls =
      (allInterests L).dedup.length := by
  have hc := (@runCycle_calls fetch L [] h).1
  have hkeys : cacheKeys ([] : StockCache) = [] := rfl
  rw [hkeys] at hc
  simp only [List.toFinset_nil, Finset.sdiff_empty] at hc
  show (runCycle fetch [] L).2.1 = (allInterests L).dedup.length
  rw [hc, List.card_toFinset]

/-- Witness for the amended C1: two listeners overlapping on `MSFT`, all
resolutions succeeding — 2 calls for 2 distinct symbols. -/
theorem claim_C1_amended_witness :
    (uppdateStockValues (fun _ => some ⟨some 1⟩) (fun _ => true) (fun _ => true)
      [⟨0, ["AAPL", "MSFT"]⟩, ⟨1, ["MSFT"]⟩]).apiCalls =
      (allInterests [⟨0, ["AAPL", "MSFT"]⟩, ⟨1, ["MSFT"]⟩]).dedup.length :=
  claim_C1_amended _ _ _ _ (by decide)

/-- Claim C2: every listener with a non-empty, duplicate-free interest list
gets a payload holding exactly one entry per interested symbol — the entry
symbols read back the interest list, each symbol counts exactly once, absent
symbols count zero times — and each entry is a `price_update` or an `error`
entry for its own symbol. -/
theorem claim_C2 (fetch : String → Option YahooFinanceQuote)
    (ready sendOk : WS → Bool) (L : Listeners) (l : StockValueListener)
    (hl : l ∈ L) (hne : l.interests ≠ []) (hnd : l.interests.Nodup) :
    ∃ d ∈ (uppdateStockValues fetch ready sendOk L).deliveries,
      d.listener = l ∧
      d.updates.map UpdateEntry.symbol = l.interests ∧
      (∀ s ∈ l.interests, (d.updates.map UpdateEntry.symbol).count s = 1) ∧
      (∀ s, s ∉ l.interests → (d.updates.map UpdateEntry.symbol).count s = 0) ∧
      (∀ e ∈ d.updates,
        (∃ p, e = UpdateEntry.price_update e.symbol p) ∨
        (∃ m, e = UpdateEntry.error e.symbol m)) := by
  refine ⟨⟨l, l.interests.map (entryFor fetch)⟩,
    delivery_exists fetch ready sendOk L l hl hne, rfl, ?_, ?_, ?_, ?_⟩
  · rw [List.map_map]
    have : UpdateEntry.symbol ∘ entryFor fetch = id := by
      funext s
      exact entryFor_symbol fetch s
    rw [this, List.map_id]
  · intro s hs
    rw [List.map_map]
    have : UpdateEntry.symbol ∘ entryFor fetch = id := by
      funext t
      exact entryFor_symbol fetch t
    rw [this, List.map_id]
    exact List.count_eq_one_of_mem hnd hs
  · intro s hs
    rw [List.map_map]
    have : UpdateEntry.symbol ∘ entryFor fetch = id := by
      funext t
      exact entryFor_symbol fetch t
    rw [this, List.map_id]
    exact List.count_eq_zero.mpr hs
  · intro e he
    obtain ⟨t, _, rfl⟩ := List.mem_map.mp he
    unfold entryFor
    cases ht : fetch t with
    | none => exact Or.inr ⟨"Failed to fetch price", by simp [UpdateEntry.symbol]⟩
    | some q => exact Or.inl ⟨q.price.getD 0, by simp [UpdateEntry.symbol]⟩

/-- Witness for C2 at a one-listener registry. -/
theorem claim_C2_witness :
    ∃ d ∈ (uppdateStockValues (fun _ => some ⟨some 3⟩) (fun _ => true) (fun _ => true)
      [⟨0, ["A"]⟩]).deliveries,
      d.listener = ⟨0, ["A"]⟩ ∧
      d.updates.map UpdateEntry.symbol = (⟨0, ["A"]⟩ : StockValueListener).interests ∧
      (∀ s ∈ (⟨0, ["A"]⟩ : StockValueListener).interests,
        (d.updates.map UpdateEntry.symbol).count s = 1) ∧
      (∀ s, s ∉ (⟨0, ["A"]⟩ : StockValueListener).interests →
        (d.updates.map UpdateEntry.symbol).count s = 0) ∧
      (∀ e ∈ d.updates,
        (∃ p, e = UpdateEntry.price_update e.symbol p) ∨
        (∃ m, e = UpdateEntry.error e.symbol m)) :=
  claim_C2 _ _ _ _ _ (by decide) (by decide) (by decide)

theorem allInterests_eq_nil {L : Listeners} (h : ∀ l ∈ L, l.interests = []) :
    allInterests L = [] := by
  induction L with
  | nil => rfl
  | cons l rest ih =>
    rw [allInterests_cons, h l (List.mem_cons_self _ _),
      ih fun l' hl' => h l' (List.mem_cons_of_mem _ hl')]
    rfl

/-- Claim C6: a listener with an empty interest list is skipped — it never
appears among the attempted deliveries — and when every listener's interest
list is empty (in particular when there are no listeners) the cycle makes
zero `getQuote` calls, attempts zero deliveries and transmits nothing. -/
theorem claim_C6 (fetch : String → Option YahooFinanceQuote)
    (ready sendOk : WS → Bool) (L : Listeners) :
    (∀ d ∈ (uppdateStockValues fetch ready sendOk L).deliveries,
      d.listener.interests ≠ []) ∧
    ((∀ l ∈ L, l.interests = []) →
      (uppdateStockValues fetch ready sendOk L).apiCalls = 0 ∧
      (uppdateStockValues fetch ready sendOk L).deliveries = [] ∧
      (uppdateStockValues fetch ready sendOk L).sent = []) := by
  constructor
  · intro d hd
    rw [uppdateStockValues_deliveries] at hd
    obtain ⟨l, hl, rfl⟩ := List.mem_map.mp hd
    have := (List.mem_filter.mp hl).2
    simpa [List.isEmpty_iff] using this
  · intro h
    have hnil : allInterests L = [] := allInterests_eq_nil h
    have hcalls : (uppdateStockValues fetch ready sendOk L).apiCalls = 0 := by
      have hc := (@runCycle_calls fetch L []
        (by rw [hnil]; intro s hs; simp at hs)).1
      rw [hnil] at hc
      simpa [uppdateStockValues] using hc
    have hdel : (uppdateStockValues fetch ready sendOk L).deliveries = [] := by
      rw [uppdateStockValues_deliveries]
      have : L.filter (fun l => !l.interests.isEmpty) = [] := by
        apply List.filter_eq_nil_iff.mpr
        intro l hl
        simp [h l hl]
      rw [this]
      rfl
    refine ⟨hcalls, hdel, ?_⟩
    show (uppdateStockValues fetch ready sendOk L).deliveries.filterMap _ = []
    rw [hdel]
    rfl

/-- Witness for C6: an empty-interest listener alongside an empty registry
check — zero calls, zero deliveries. -/
theorem claim_C6_witness :
    (uppdateStockValues (fun _ => some ⟨some 1⟩) (fun _ => true) (fun _ => true)
      [⟨0, []⟩, ⟨1, []⟩]).apiCalls = 0 ∧
    (uppdateStockValues (fun _ => some ⟨some 1⟩) (fun _ => true) (fun _ => true)
      [⟨0, []⟩, ⟨1, []⟩]).deliveries = [] ∧
    (uppdateStockValues (fun _ => some ⟨some 1⟩) (fun _ => true) (fun _ => true)
      [⟨0, []⟩, ⟨1, []⟩]).sent = [] :=
  (claim_C6 _ _ _ _).2 (by decide)

/-- Claim C7: a resolver failure for a symbol is localized to that symbol
for the cycle: every listener interested in it still gets a payload carrying
an `error` entry for it and no `price_update` entry for it, every other
symbol of that listener that resolves successfully still yields its
`price_update` entry, a listener interested only in the failing symbol gets
exactly the single error entry, and every other listener with interests
still gets its delivery. -/
theorem claim_C7 (fetch : String → Option YahooFinanceQuote)
    (ready sendOk : WS → Bool) (L : Listeners) (l : StockValueListener)
    (s : String) (hl : l ∈ L) (hs : s ∈ l.interests) (hf : fetch s = none) :
    (∃ d ∈ (uppdateStockValues fetch ready sendOk L).deliveries,
      d.listener = l ∧
      UpdateEntry.error s "Failed to fetch price" ∈ d.updates ∧
      (∀ t ∈ l.interests, ∀ q, fetch t = some q →
        UpdateEntry.price_update t (q.price.getD 0) ∈ d.updates) ∧
      (∀ p, UpdateEntry.price_update s p ∉ d.updates) ∧
      (l.interests = [s] →
        d.updates = [UpdateEntry.error s "Failed to fetch price"])) ∧
    (∀ l' ∈ L, l'.interests ≠ [] →
      ∃ d' ∈ (uppdateStockValues fetch ready sendOk L).deliveries,
        d'.listener = l') := by
  have hne : l.interests ≠ [] := fun hnil => by rw [hnil] at hs; simp at hs
  constructor
  · refine ⟨⟨l, l.interests.map (entryFor fetch)⟩,
      delivery_exists fetch ready sendOk L l hl hne, rfl, ?_, ?_, ?_, ?_⟩
    · refine List.mem_map.mpr ⟨s, hs, ?_⟩
      simp [entryFor, hf]
    · intro t ht q hq
      refine List.mem_map.mpr ⟨t, ht, ?_⟩
      simp [entryFor, hq]
    · intro p hp
      obtain ⟨t, ht, hte⟩ := List.mem_map.mp hp
      unfold entryFor at hte
      cases hq : fetch t with
      | none => rw [hq] at hte; exact UpdateEntry.noConfusion hte
      | some q =>
        rw [hq] at hte
        obtain ⟨rfl, -⟩ := UpdateEntry.price_update.inj hte
        rw [hf] at hq
        exact Option.noConfusion hq
    · intro hsingle
      rw [hsingle]
      simp [entryFor, hf]
  · intro l' hl' hne'
    exact ⟨⟨l', l'.interests.map (entryFor fetch)⟩,
      delivery_exists fetch ready sendOk L l' hl' hne', rfl⟩

/-- Witness for C7: a registry with a `TSLA`-only listener and an `AAPL`
listener, the resolver failing on `TSLA` only. -/
theorem claim_C7_witness :
    (∃ d ∈ (uppdateStockValues
        (fun s => if s = "TSLA" then none else some ⟨some 7⟩)
        (fun _ => true) (fun _ => true)
        [⟨0, ["TSLA"]⟩, ⟨1, ["AAPL"]⟩]).deliveries,
      d.listener = ⟨0, ["TSLA"]⟩ ∧
      UpdateEntry.error "TSLA" "Failed to fetch price" ∈ d.updates ∧
      (∀ t ∈ (⟨0, ["TSLA"]⟩ : StockValueListener).interests, ∀ q,
        (if t = "TSLA" then none else some (⟨some 7⟩ : YahooFinanceQuote)) = some q →
        UpdateEntry.price_update t (q.price.getD 0) ∈ d.updates) ∧
      (∀ p, UpdateEntry.price_update "TSLA" p ∉ d.updates) ∧
      ((⟨0, ["TSLA"]⟩ : StockValueListener).interests = ["TSLA"] →
        d.updates = [UpdateEntry.error "TSLA" "Failed to fetch price"])) ∧
    (∀ l' ∈ [(⟨0, ["TSLA"]⟩ : StockValueListener), ⟨1, ["AAPL"]⟩],
      l'.interests ≠ [] →
      ∃ d' ∈ (uppdateStockValues
        (fun s => if s = "TSLA" then none else some ⟨some 7⟩)
        (fun _ => true) (fun _ => true)
        [⟨0, ["TSLA"]⟩, ⟨1, ["AAPL"]⟩]).deliveries,
        d'.listener = l') :=
  claim_C7 _ _ _ _ _ _ (by decide) (by decide) (by decide)

/-- Claim C8 is false of the code in its removal part: with listener 0 on a
non-ready socket and listener 1 on a ready one, the failed delivery to
listener 0 is caught and listener 1 is still served — but listener 0 is NOT
removed: `sendToClient` only logs, and `uppdateStockValues` never mutates
`this.listeners`, which still holds the failed listener after the cycle. -/
theorem claim_C8_counterexample :
    (fun w => w == 1) 0 = false ∧
    (uppdateStockValues (fun _ => some ⟨some 5⟩) (fun w => w == 1) (fun _ => true)
      [⟨0, ["A"]⟩, ⟨1, ["A"]⟩]).sent = [(1, [UpdateEntry.price_update "A" 5])] ∧
    (uppdateStockValues (fun _ => some ⟨some 5⟩) (fun w => w == 1) (fun _ => true)
      [⟨0, ["A"]⟩, ⟨1, ["A"]⟩]).listenersAfter = [⟨0, ["A"]⟩, ⟨1, ["A"]⟩] ∧
    (⟨0, ["A"]⟩ : StockValueListener) ∈
      (uppdateStockValues (fun _ => some ⟨some 5⟩) (fun w => w == 1) (fun _ => true)
        [⟨0, ["A"]⟩, ⟨1, ["A"]⟩]).listenersAfter := by
  refine ⟨by decide, by decide, by decide, by decide⟩

/-- Claim C8 amended: a delivery failure (non-ready socket or throwing send)
is caught inside `sendToClient` and does not abort delivery to the remaining
listeners — every listener with interests gets its delivery attempt, and any
listener whose socket is ready and whose send succeeds has its frame
transmitted, whatever happened to the others — but the failure does NOT
trigger removal: the cycle leaves the registry exactly as it found it. -/
theorem claim_C8_amended (fetch : String → Option YahooFinanceQuote)
    (ready sendOk : WS → Bool) (L : Listeners) :
    (uppdateStockValues fetch ready sendOk L).listenersAfter = L ∧
    ((uppdateStockValues fetch ready sendOk L).deliveries.map Delivery.listener =
      L.filter fun l => !l.interests.isEmpty) ∧
    (∀ d ∈ (uppdateStockValues fetch ready sendOk L).deliveries,
      ready d.listener.ws = true → sendOk d.listener.ws = true →
      (d.listener.ws, d.updates) ∈ (uppdateStockValues fetch ready sendOk L).sent) := by
  refine ⟨rfl, ?_, ?_⟩
  · rw [uppdateStockValues_deliveries, List.map_map]
    have hcomp : Delivery.listener ∘
        (fun l => (⟨l, l.interests.map (entryFor fetch)⟩ : Delivery)) = id := rfl
    rw [hcomp, List.map_id]
  · intro d hd hr hsk
    show (d.listener.ws, d.updates) ∈
      (uppdateStockValues fetch ready sendOk L).deliveries.filterMap _
    refine List.mem_filterMap.mpr ⟨d, hd, ?_⟩
    simp [sendToClient, hr, hsk]

/-- Witness for the amended C8: with everything healthy the single
listener's frame is transmitted. -/
theorem claim_C8_amended_witness :
    ((0 : WS), [UpdateEntry.price_update "A" 5]) ∈
      (uppdateStockValues (fun _ => some ⟨some 5⟩) (fun _ => true) (fun _ => true)
        [⟨0, ["A"]⟩]).sent :=
  (claim_C8_amended (fun _ => some ⟨some 5⟩) (fun _ => true) (fun _ => true)
    [⟨0, ["A"]⟩]).2.2 ⟨⟨0, ["A"]⟩, [UpdateEntry.price_update "A" 5]⟩
    (by decide) rfl rfl

/-- Claim C10: a `getQuote` call that returns without throwing but whose
quote has a missing/null or zero price field yields, through
`quoteData.price || 0`, a success-tagged `price_update` entry with price `0`
for every interested listener — never an `error` entry — and the zero-price
`StockValue` is cached for the rest of the cycle. -/
theorem claim_C10 (fetch : String → Option YahooFinanceQuote)
    (ready sendOk : WS → Bool) (L : Listeners) (l : StockValueListener)
    (s : String) (q : YahooFinanceQuote) (hl : l ∈ L) (hs : s ∈ l.interests)
    (hq : fetch s = some q) (hp : q.price = none ∨ q.price = some 0) :
    (∃ d ∈ (uppdateStockValues fetch ready sendOk L).deliveries,
      d.listener = l ∧
      UpdateEntry.price_update s 0 ∈ d.updates ∧
      (∀ m, UpdateEntry.error s m ∉ d.updates)) ∧
    cacheGet (uppdateStockValues fetch ready sendOk L).finalCache s =
      some ⟨s, 0⟩ := by
  have hgd : q.price.getD 0 = 0 := by rcases hp with h | h <;> simp [h]
  have hne : l.interests ≠ [] := fun hnil => by rw [hnil] at hs; simp at hs
  constructor
  · refine ⟨⟨l, l.interests.map (entryFor fetch)⟩,
      delivery_exists fetch ready sendOk L l hl hne, rfl, ?_, ?_⟩
    · refine List.mem_map.mpr ⟨s, hs, ?_⟩
      simp [entryFor, hq, hgd]
    · intro m hm
      obtain ⟨t, ht, hte⟩ := List.mem_map.mp hm
      unfold entryFor at hte
      cases hft : fetch t with
      | some q' => rw [hft] at hte; exact UpdateEntry.noConfusion hte
      | none =>
        rw [hft] at hte
        obtain ⟨rfl, -⟩ := UpdateEntry.error.inj hte
        rw [hq] at hft
        exact Option.noConfusion hft
  · have hsome : (fetch s).isSome := by rw [hq]; rfl
    have h₁ := @cacheGet_runCycle_isSome fetch L [] l s hl hs hsome
    have hgood := @runCycle_cacheGood fetch L [] cacheGood_nil
    have h₂ := cacheGet_of_good_isSome hgood hq h₁
    show cacheGet (runCycle fetch [] L).1 s = some ⟨s, 0⟩
    rw [h₂, hgd]

/-- Witness for C10: a resolver returning a quote with no price field. -/
theorem claim_C10_witness :
    (∃ d ∈ (uppdateStockValues (fun _ => some ⟨none⟩) (fun _ => true) (fun _ => true)
      [⟨0, ["X"]⟩]).deliveries,
      d.listener = ⟨0, ["X"]⟩ ∧
      UpdateEntry.price_update "X" 0 ∈ d.updates ∧
      (∀ m, UpdateEntry.error "X" m ∉ d.updates)) ∧
    cacheGet (uppdateStockValues (fun _ => some ⟨none⟩) (fun _ => true) (fun _ => true)
      [⟨0, ["X"]⟩]).finalCache "X" = some ⟨"X", 0⟩ :=
  claim_C10 _ _ _ _ _ _ _ (by decide) (by decide) rfl (Or.inl rfl)

end StockAnalysis
